import Mathlib

set_option maxRecDepth 4000

/-!
# Verification of `rating_csv.py`

A shallow embedding of the repository `rating-csv` (file `src/rating_csv.py`),
which converts XBRL credit-rating documents packaged in a ZIP archive to CSV.

Modelling conventions:
* Python `dict[str, str | None]` values (the flat records) are modelled as
  insertion-ordered association lists `Dict` with Python's mutation semantics:
  `Dict.set` overwrites the value in place keeping the original key position,
  or appends a fresh key at the end; `Dict.get` is `dict.get` (returns `none`
  when the key is absent); `Dict.update` is `dict.update` (the argument's
  entries win on collision).
* XML elements are a tree of (qualified tag, optional text, children); the
  child list is a mutually-defined `ElementList` so that the traversal
  functions are structurally recursive (and hence kernel-reducible).
* `datetime.date` values are modelled as natural numbers `y*10000 + m*100 + d`;
  for the calendar dates accepted by `date.fromisoformat` this encoding is
  order-isomorphic to the (year, month, day) lexicographic date order.
  `fromisoformat` parses the `YYYY-MM-DD` layout that
  `datetime.date.fromisoformat` accepts.
* Python exceptions are modelled with `Except PyExc`; the exception class
  matters because `ratings_to_csv` catches exactly `UnicodeEncodeError`.
-/

/-- The Python exception classes that the program can raise or catch. -/
inductive PyExc where
  | unicodeEncodeError
  | unicodeDecodeError
  | xmlParseError
  | valueError
  | keyError
  | typeError
deriving DecidableEq

/-- Python dicts are modelled as insertion-ordered association lists.  This is
the generic lookup (first match; `none` when the key is absent), shared by the
record dicts and the `by_type` dict of the As-Of filter. -/
def alGet {κ α : Type} [DecidableEq κ] : List (κ × α) → κ → Option α
  | [], _ => none
  | p :: rest, k => if p.1 = k then some p.2 else alGet rest k

/-- The generic association-list store with Python `d[k] = v` semantics:
overwrite in place if the key is present (keeping its original insertion
position), otherwise append at the end. -/
def alSet {κ α : Type} [DecidableEq κ] : List (κ × α) → κ → α → List (κ × α)
  | [], k, v => [(k, v)]
  | p :: rest, k, v =>
    if p.1 = k then (k, v) :: rest else p :: alSet rest k v

/-- A Python `dict[str, str | None]` in insertion order: the record type
produced by the flattener.  The value type is `Option String` because XML
leaf text may be `None`. -/
abbrev Dict := List (String × Option String)

/-- `d[k] = v` on a record dict. -/
def Dict.set (d : Dict) (k : String) (v : Option String) : Dict := alSet d k v

/-- Python `dict.__getitem__` / key lookup on a record dict: `some v` when the
key is stored with value `v`, `none` when absent. -/
def Dict.get (d : Dict) (k : String) : Option (Option String) := alGet d k

/-- Python `record.update(other)`: iterate over `other`'s entries in order and
store each into `record`; `other`'s values win on a key collision. -/
def Dict.update : Dict → Dict → Dict
  | r, [] => r
  | r, p :: t => Dict.update (Dict.set r p.1 p.2) t

/-- Python `record.get(k)`: `None` both when the key is absent and when it is
stored with value `None` (used for the grouping key in the As-Of filter). -/
def flatGet (r : Dict) (k : String) : Option String :=
  match Dict.get r k with
  | some v => v
  | none => none

/- An XML element: qualified tag, optional text, ordered children.  The child
list is a mutually inductive `ElementList` so that the tree walk below is
structurally recursive. -/
mutual

inductive Element where
  | mk (tag : String) (text : Option String) (children : ElementList)

inductive ElementList where
  | nil : ElementList
  | cons : Element → ElementList → ElementList

end

def Element.tag : Element → String
  | .mk t _ _ => t

def Element.text : Element → Option String
  | .mk _ x _ => x

def Element.children : Element → ElementList
  | .mk _ _ cs => cs

def ElementList.toList : ElementList → List Element
  | .nil => []
  | .cons e es => e :: ElementList.toList es

/-- `RATINGS_NAMESPACE = "{http://xbrl.sec.gov/ratings/2015-03-31}"`
(40 characters, braces included). -/
def RATINGS_NAMESPACE : String := "\x7bhttp://xbrl.sec.gov/ratings/2015-03-31\x7d"

/-- `SEQUENCE_TAGS`: container tag ↦ tag of its repeated "item" children. -/
def SEQUENCE_TAGS : List (String × String) :=
  [(RATINGS_NAMESPACE ++ "OD", RATINGS_NAMESPACE ++ "ORD"),
   (RATINGS_NAMESPACE ++ "ISD", RATINGS_NAMESPACE ++ "IND"),
   (RATINGS_NAMESPACE ++ "IND", RATINGS_NAMESPACE ++ "IRD")]

/-- `SEQUENCE_TAGS.get(tag)` (Python `dict.get` on the constant table). -/
def seqLookup (tag : String) : Option String :=
  (SEQUENCE_TAGS.find? (fun p => p.1 = tag)).map (fun p => p.2)

/-- `e.tag[40:]`: strip the 40-character namespace wrapper from a tag. -/
def strip40 (s : String) : String := s.drop 40

/-- The digit value of a decimal digit character. -/
def digitVal (c : Char) : Nat := c.toNat - 48

/-- `datetime.date.fromisoformat`: parse a `YYYY-MM-DD` string into the
numeric date encoding `y*10000 + m*100 + d`; `none` models the `ValueError`
raised on a malformed string. -/
def fromisoformat (s : String) : Option Nat :=
  match s.toList with
  | [y1, y2, y3, y4, '-', m1, m2, '-', d1, d2] =>
    if y1.isDigit && y2.isDigit && y3.isDigit && y4.isDigit &&
       m1.isDigit && m2.isDigit && d1.isDigit && d2.isDigit then
      let y := ((digitVal y1 * 10 + digitVal y2) * 10 + digitVal y3) * 10 + digitVal y4
      let m := digitVal m1 * 10 + digitVal m2
      let d := digitVal d1 * 10 + digitVal d2
      if 1 ≤ m ∧ m ≤ 12 ∧ 1 ≤ d ∧ d ≤ 31 then some (y * 10000 + m * 100 + d)
      else none
    else none
  | _ => none

/-- `date.fromisoformat(record["RAD"])`: `KeyError` when `"RAD"` is absent,
`TypeError` when it is stored as `None`, `ValueError` when the string does not
parse as an ISO date. -/
def recRad (r : Dict) : Except PyExc Nat :=
  match Dict.get r "RAD" with
  | none => .error .keyError
  | some none => .error .typeError
  | some (some s) =>
    match fromisoformat s with
    | none => .error .valueError
    | some d => .ok d

/-- The As-Of grouping key
`(record.get("RT"), record.get("RST"), record.get("RTT"))`. -/
abbrev RKey := Option String × Option String × Option String

/-- `key = record.get("RT"), record.get("RST"), record.get("RTT")`. -/
def recKey (r : Dict) : RKey := (flatGet r "RT", flatGet r "RST", flatGet r "RTT")

/-- The Python dict `by_type` keyed by `RKey`, again in insertion order. -/
abbrev KeyDict := List (RKey × Dict)

/-- `by_type.get(key)`. -/
def KeyDict.get (d : KeyDict) (k : RKey) : Option Dict := alGet d k

/-- `by_type[key] = record`. -/
def KeyDict.set (d : KeyDict) (k : RKey) (v : Dict) : KeyDict := alSet d k v

/-- The loop body of `filter_records` (lines 170–179 of `rating_csv.py`),
written as a recursion over the record list with the accumulator `by_type`:
parse `record["RAD"]`, skip the record when it is after the cutoff, and
otherwise store it under its key unless an already-stored record has a
rating-action-date that is not smaller. -/
def asofFold (asof : Nat) : List Dict → KeyDict → Except PyExc KeyDict
  | [], by_type => .ok by_type
  | record :: rest, by_type =>
    match recRad record with
    | .error e => .error e
    | .ok rad =>
      if asof < rad then
        -- rating is after asof date
        asofFold asof rest by_type
      else
        match KeyDict.get by_type (recKey record) with
        | none => asofFold asof rest (KeyDict.set by_type (recKey record) record)
        | some old =>
          match recRad old with
          | .error e => .error e
          | .ok orad =>
            if orad < rad then
              -- rating is most recent encountered so far
              asofFold asof rest (KeyDict.set by_type (recKey record) record)
            else
              asofFold asof rest by_type

/-- `rating_detail_tags` from `filter_asof`. -/
def rating_detail_tags : List String :=
  [RATINGS_NAMESPACE ++ "OD", RATINGS_NAMESPACE ++ "IND"]

/-- `filter_records` (the closure returned by `filter_asof(asof)`): on a
rating-detail container, keep per grouping key the most recent record not
after the cutoff (in `by_type` key-insertion order); on any other element it
is a passthrough. -/
def filter_records (asof : Nat) (records : List Dict) (element : Element) :
    Except PyExc (List Dict) :=
  if element.tag ∈ rating_detail_tags then
    match asofFold asof records [] with
    | .error e => .error e
    | .ok by_type => .ok (by_type.map (fun p => p.2))
  else .ok records

/-- The type of the optional `transformation` callback threaded through
`element_to_records`. -/
abbrev Transform := List Dict → Element → Except PyExc (List Dict)

/-- `filter_asof(asof)` returns the `filter_records` closure. -/
def filter_asof (asof : Nat) : Transform := filter_records asof

/- `element_to_records` (lines 129–159) and its worklist loop.  The Python
loop keeps an explicit stack holding the still-unvisited elements in document
order (top of stack = next in document order: the stack is seeded with
`list(element)[::-1]` and a visited non-leaf pushes `list(e)[::-1]`), so
popping is modelled by recursing first into a non-leaf's children and then
into the remaining list.  `walk` returns the final `(this, records)` pair. -/
mutual

def element_to_records : Element → Option Transform → Except PyExc (List Dict)
  | .mk tag text cs, transformation =>
    let sequence_tag := seqLookup tag
    match walk sequence_tag transformation cs [] [] with
    | .error e => .error e
    | .ok (this_, records) =>
      let records' :=
        match sequence_tag with
        | none => [this_]
        | some _ => records.map (fun record => Dict.update record this_)
      match transformation with
      | none => .ok records'
      | some t => t records' (.mk tag text cs)

def walk (sequence_tag : Option String) (transformation : Option Transform) :
    ElementList → Dict → List Dict → Except PyExc (Dict × List Dict)
  | .nil, this_, records => .ok (this_, records)
  | .cons (.mk t x .nil) rest, this_, records =>
    if some t = sequence_tag then
      -- process each element in sequence
      match element_to_records (.mk t x .nil) transformation with
      | .error e => .error e
      | .ok recs => walk sequence_tag transformation rest this_ (records ++ recs)
    else
      -- extract text from leaf nodes
      walk sequence_tag transformation rest (Dict.set this_ (strip40 t) x) records
  | .cons (.mk t x (.cons c crest)) rest, this_, records =>
    if some t = sequence_tag then
      -- process each element in sequence
      match element_to_records (.mk t x (.cons c crest)) transformation with
      | .error e => .error e
      | .ok recs => walk sequence_tag transformation rest this_ (records ++ recs)
    else
      -- ignore other non-leaf nodes and add children to stack
      match walk sequence_tag transformation (.cons c crest) this_ records with
      | .error e => .error e
      | .ok (this2, records2) => walk sequence_tag transformation rest this2 records2

end

/-- `root.find(".//tag")`: the first element with the given tag among all
proper descendants of `root`, in document (depth-first, pre-) order. -/
def findIn (tag : String) : ElementList → Option Element
  | .nil => none
  | .cons (.mk t x cs) rest =>
    if t = tag then some (.mk t x cs)
    else
      match findIn tag cs with
      | some r => some r
      | none => findIn tag rest

/-- `root.find(".//tag")` searches the descendants of `root` (it does not
match `root` itself). -/
def findDesc (root : Element) (tag : String) : Option Element :=
  findIn tag root.children

/-- `root.findtext(".//tag")`: `None` when no element matches; otherwise the
matched element's text, with `None` text rendered as `""`. -/
def findtextDesc (root : Element) (tag : String) : Option String :=
  match findDesc root tag with
  | none => none
  | some e =>
    match e.text with
    | none => some ""
    | some s => some s

/-- The `rating_type` argument; `argparse` restricts it to these two values,
so the `ValueError` branches of the Python code are unreachable. -/
inductive RatingType where
  | obligor
  | issuer
deriving DecidableEq

/-- The root tag searched for by `xml_to_records`: `OD` for obligor ratings,
`ISD` for issuer ratings. -/
def rootTag : RatingType → String
  | .obligor => RATINGS_NAMESPACE ++ "OD"
  | .issuer => RATINGS_NAMESPACE ++ "ISD"

/-- `xml_to_records` (lines 103–126): find the rating-type root element; if
absent return `[]`; otherwise flatten it (through `filter_asof` when a cutoff
is given) and then store the document-level `RAN` and `FCD` values into every
record. -/
def xml_to_records (root : Element) (rating_type : RatingType)
    (asof : Option Nat) : Except PyExc (List Dict) :=
  match findDesc root (rootTag rating_type) with
  | none => .ok []
  | some element =>
    let transformation := asof.map filter_asof
    match element_to_records element transformation with
    | .error e => .error e
    | .ok records =>
      let ran := findtextDesc root (RATINGS_NAMESPACE ++ "RAN")
      let fcd := findtextDesc root (RATINGS_NAMESPACE ++ "FCD")
      .ok (records.map (fun record => Dict.set (Dict.set record "RAN" ran) "FCD" fcd))

/-- `AGENCY_FIELDS` (short tag ↦ long CSV column name). -/
def AGENCY_FIELDS : List (String × String) :=
  [("RAN", "rating_agency_name"),
   ("FCD", "file_creation_date")]

/-- `OBLIGOR_FIELDS`. -/
def OBLIGOR_FIELDS : List (String × String) :=
  [("OSC", "obligor_subclass"),
   ("OIG", "obligor_industry_group"),
   ("OBNAME", "obligor_name"),
   ("LEI", "legal_entity_identifier"),
   ("CIK", "central_index_key"),
   ("OI", "obligor_identifier"),
   ("OIS", "obligor_identifier_schema"),
   ("OIOS", "obligor_identifier_other_schema")]

/-- `ISSUER_FIELDS`. -/
def ISSUER_FIELDS : List (String × String) :=
  [("SSC", "sec_subcategory"),
   ("IG", "industry_group"),
   ("ISSNAME", "issuer_name"),
   ("ISI", "issuer_identifier"),
   ("ISIS", "issuer_identifier_scheme"),
   ("ISIOS", "issuer_identifier_other_scheme"),
   ("OBT", "object_type"),
   ("INSTNAME", "instrument_name"),
   ("CUSIP", "cusip"),
   ("INI", "instrument_identifier"),
   ("INIS", "instrument_identifier_scheme"),
   ("INIOS", "instrument_identifier_other_scheme"),
   ("IRTD", "interest_rate_type_description"),
   ("CR", "coupon_rate"),
   ("MD", "maturity_date"),
   ("PV", "par_value"),
   ("ISUD", "issuance_date"),
   ("RODC", "other_debt_category")]

/-- `RATING_FIELDS`. -/
def RATING_FIELDS : List (String × String) :=
  [("IP", "issuer_paid"),
   ("R", "rating"),
   ("RAD", "rating_action_date"),
   ("RAC", "rating_action_classification"),
   ("WST", "watch_status"),
   ("ROL", "rating_outlook"),
   ("OAN", "other_announcement"),
   ("RT", "rating_type"),
   ("RST", "rating_subtype"),
   ("RTT", "rating_type_term")]

/-- Python `d1 | d2` on dicts: `d1`'s keys first in their order (with `d2`'s
value on a collision), then `d2`'s remaining keys in order. -/
def dictUnion (a b : List (String × String)) : List (String × String) :=
  a.map (fun p =>
    match b.find? (fun q => q.1 = p.1) with
    | some q => (p.1, q.2)
    | none => p) ++
  b.filter (fun q => ¬ a.any (fun p => p.1 = q.1))

/-- `fieldnames = list(AGENCY_FIELDS | TYPE_FIELDS | RATING_FIELDS)`
(lines 80–83): iterating a Python dict yields its KEYS, so the CSV column
names are the short tags, not the long dictionary values. -/
def fieldnames : RatingType → List String
  | .obligor => (dictUnion (dictUnion AGENCY_FIELDS OBLIGOR_FIELDS) RATING_FIELDS).map
      (fun p => p.1)
  | .issuer => (dictUnion (dictUnion AGENCY_FIELDS ISSUER_FIELDS) RATING_FIELDS).map
      (fun p => p.1)

/-- One row written by `csv.DictWriter.writerow`: raise `ValueError` when the
record holds a key outside `fieldnames` (the default `extrasaction="raise"`),
otherwise emit for every field name the stored string, with both a missing
key (the default `restval=None`) and a stored `None` rendered as `""`. -/
def writeRow (fns : List String) (r : Dict) : Except PyExc (List String) :=
  if r.any (fun p => ¬ p.1 ∈ fns) then .error .valueError
  else .ok (fns.map (fun f => (flatGet r f).getD ""))

/-- `writer.writerows(records)`: write each row in order, stopping at the
first failing record. -/
def writeRows (fns : List String) : List Dict → Except PyExc (List (List String))
  | [] => .ok []
  | r :: rest =>
    match writeRow fns r with
    | .error e => .error e
    | .ok row =>
      match writeRows fns rest with
      | .error e => .error e
      | .ok rows => .ok (row :: rows)

/-- The body of the per-entry `try` block of `ratings_to_csv` (lines 94–98):
open and parse the entry (its parse outcome, including the class of the
exception a failed parse raises, is the input datum), run `xml_to_records`,
and write the resulting records. -/
def entryRows (rating_type : RatingType) (asof : Option Nat)
    (parsed : Except PyExc Element) : Except PyExc (List (List String)) :=
  match parsed with
  | .error e => .error e
  | .ok root =>
    match xml_to_records root rating_type asof with
    | .error e => .error e
    | .ok records => writeRows (fieldnames rating_type) records

/-- Python `filename.endswith(suffix)` (written over the character lists so
that it evaluates inside the kernel). -/
def endswith (s suffix : String) : Bool :=
  suffix.toList.isSuffixOf s.toList

/-- One iteration of the entry loop of `ratings_to_csv` (lines 91–100):
entries whose name does not end in `.xml` are skipped; the `try` block's
failure is swallowed exactly when the exception is `UnicodeEncodeError`,
every other exception propagates and aborts the whole run. -/
def entryStep (rating_type : RatingType) (asof : Option Nat)
    (acc : List (List String)) (entry : String × Except PyExc Element) :
    Except PyExc (List (List String)) :=
  if endswith entry.1 ".xml" then
    match entryRows rating_type asof entry.2 with
    | .ok rows => .ok (acc ++ rows)
    | .error .unicodeEncodeError => .ok acc
    | .error e => .error e
  else .ok acc

/-- The entry loop of `ratings_to_csv`: left fold of `entryStep`, stopping at
the first propagated exception. -/
def csvLoop (rating_type : RatingType) (asof : Option Nat) :
    List (String × Except PyExc Element) → List (List String) →
    Except PyExc (List (List String))
  | [], acc => .ok acc
  | entry :: rest, acc =>
    match entryStep rating_type asof acc entry with
    | .error e => .error e
    | .ok acc2 => csvLoop rating_type asof rest acc2

/-- `ratings_to_csv` (lines 74–100), modelled on the rows it writes after the
header: the archive is the list of (entry name, parse outcome) pairs, and the
result is the concatenation of every processed entry's rows, or the first
uncaught exception.  The header row, written once before any entry is
processed, is `fieldnames rating_type`. -/
def ratings_to_csv (entries : List (String × Except PyExc Element))
    (rating_type : RatingType) (asof : Option Nat) :
    Except PyExc (List (List String)) :=
  csvLoop rating_type asof entries []

/-- A leaf element in the ratings namespace carrying a text value. -/
def nsLeaf (t v : String) : Element := .mk (RATINGS_NAMESPACE ++ t) (some v) .nil

/-- An obligor rating-detail entry (`ORD`): rating value, action date,
rating type. -/
def exORD (r rad rt : String) : Element :=
  .mk (RATINGS_NAMESPACE ++ "ORD") none
    (.cons (nsLeaf "R" r) (.cons (nsLeaf "RAD" rad) (.cons (nsLeaf "RT" rt) .nil)))

/-- An obligor document: agency name `ACME Ratings`, file-creation date
`2023-01-01`, one obligor with two rating entries dated `2022-06-01`
(rating `BBB`) and `2023-06-01` (rating `A`). -/
def exDoc : Element :=
  .mk (RATINGS_NAMESPACE ++ "ROCRA") none
    (.cons (nsLeaf "RAN" "ACME Ratings")
      (.cons (nsLeaf "FCD" "2023-01-01")
        (.cons (.mk (RATINGS_NAMESPACE ++ "OD") none
          (.cons (nsLeaf "OBNAME" "Obligor Inc")
            (.cons (exORD "BBB" "2022-06-01" "L")
              (.cons (exORD "A" "2023-06-01" "L") .nil)))) .nil)))

/-- The value attached to the last occurrence of a key in a plain entry list
(the value a left-to-right sequence of `d[k] = v` stores ends up with). -/
def lastGet : List (String × Option String) → String → Option (Option String)
  | [], _ => none
  | p :: t, k =>
    match lastGet t k with
    | some v => some v
    | none => if p.1 = k then some p.2 else none

/- A size measure on element trees, used for strong induction along the
recursion structure of `walk`. -/
mutual

def esize : Element → Nat
  | .mk _ _ cs => 1 + esizeList cs

def esizeList : ElementList → Nat
  | .nil => 0
  | .cons e rest => esize e + esizeList rest

end

/-- The (stripped tag, text) pairs of the non-item leaf nodes that the
worklist loop of `element_to_records` visits, listed in document order
(an item subtree contributes nothing; a pass-through node contributes its
own subtree's leaves before the following siblings'). -/
def collectLeaves (sequence_tag : Option String) : ElementList → List (String × Option String)
  | .nil => []
  | .cons (.mk t x .nil) rest =>
    if some t = sequence_tag then collectLeaves sequence_tag rest
    else (strip40 t, x) :: collectLeaves sequence_tag rest
  | .cons (.mk t x (.cons c crest)) rest =>
    if some t = sequence_tag then collectLeaves sequence_tag rest
    else collectLeaves sequence_tag (.cons c crest) ++ collectLeaves sequence_tag rest

/-- The (stripped tag, text) pairs of a list of elements all taken as leaves. -/
def leafPairs : ElementList → List (String × Option String)
  | .nil => []
  | .cons e rest => (strip40 e.tag, e.text) :: leafPairs rest

/-- Whether a child list is empty (Python `len(e) == 0`, the leaf test). -/
def ElementList.isNil : ElementList → Bool
  | .nil => true
  | .cons _ _ => false

/-- The dict the flattener builds from a list of leaves taken in order. -/
def leafDict (cs : ElementList) : Dict := Dict.update [] (leafPairs cs)

/-- The shared-context dict (`this` in the source) an invocation of
`element_to_records` accumulates: all non-item leaves in document order,
later occurrences of a key overwriting earlier ones. -/
def sharedContext (st : Option String) (cs : ElementList) : Dict :=
  Dict.update [] (collectLeaves st cs)

/-- The invariant maintained by the loop of `filter_records` over the prefix
`done` of already-processed records: `by_type` has pairwise-distinct keys;
each stored record occurs in `done` (at some index `i`), carries its own key,
parses to a rating-action-date `rad ≤ asof`, `rad` is maximal among the
qualifying same-key records of `done`, and every strictly earlier (`j < i`)
qualifying same-key record has a strictly smaller date; conversely every
qualifying record of `done` has some entry stored under its key. -/
structure InvAt (asof : Nat) (done : List Dict) (by_type : KeyDict) : Prop where
  nodup : (by_type.map Prod.fst).Nodup
  entries : ∀ k r, (k, r) ∈ by_type →
    recKey r = k ∧
    ∃ i rad, done.get? i = some r ∧ recRad r = .ok rad ∧ rad ≤ asof ∧
      (∀ j r' rad', done.get? j = some r' → recKey r' = k →
        recRad r' = .ok rad' → rad' ≤ asof → rad' ≤ rad ∧ (j < i → rad' < rad))
  complete : ∀ j r', done.get? j = some r' →
    (∃ rad', recRad r' = .ok rad' ∧ rad' ≤ asof) →
    ∃ rr, (recKey r', rr) ∈ by_type

/-- An obligor rating-detail container element with no children, used as the
`element` argument when exercising `filter_records` directly. -/
def exOD0 : Element := .mk (RATINGS_NAMESPACE ++ "OD") none .nil

/-- A rating record dated after the example cutoffs. -/
def wrA : Dict := [("RAD", some "2024-01-05"), ("RT", some "L"), ("R", some "X")]

/-- A rating record dated 2022-06-01 (rating `BBB`). -/
def wrB : Dict := [("RAD", some "2022-06-01"), ("RT", some "L"), ("R", some "BBB")]

/-- A rating record dated 2023-06-01 (rating `A`), same group key as `wrB`. -/
def wrC : Dict := [("RAD", some "2023-06-01"), ("RT", some "L"), ("R", some "A")]

/-- Two records sharing group key and maximum date, differing in rating. -/
def tieA : Dict := [("RAD", some "2023-06-01"), ("RT", some "L"), ("R", some "AAA")]

/-- The later-encountered record of the tie. -/
def tieB : Dict := [("RAD", some "2023-06-01"), ("RT", some "L"), ("R", some "BBB")]

/-- Deciding whether a child list is the empty list. -/
instance decElementListEqNil (es : ElementList) :
    Decidable (es = ElementList.nil) :=
  match es with
  | .nil => isTrue rfl
  | .cons _ _ => isFalse (fun h => ElementList.noConfusion h)

/-- A document with no obligor-detail (`OD`) element at all. -/
def exNoOD : Element :=
  .mk (RATINGS_NAMESPACE ++ "ROCRA") none (.cons (nsLeaf "RAN" "ACME Ratings") .nil)

/-- The first record `exDoc` flattens to. -/
def exRec1 : Dict :=
  [("R", some "BBB"), ("RAD", some "2022-06-01"), ("RT", some "L"),
   ("OBNAME", some "Obligor Inc"), ("RAN", some "ACME Ratings"),
   ("FCD", some "2023-01-01")]

/-- The second record `exDoc` flattens to. -/
def exRec2 : Dict :=
  [("R", some "A"), ("RAD", some "2023-06-01"), ("RT", some "L"),
   ("OBNAME", some "Obligor Inc"), ("RAN", some "ACME Ratings"),
   ("FCD", some "2023-01-01")]

/-- The child list of the obligor container used in the C6 witness: one
shared leaf (`OBNAME`) and two `ORD` items. -/
def exC6cs : ElementList :=
  .cons (nsLeaf "OBNAME" "Obligor Inc")
    (.cons (exORD "BBB" "2022-06-01" "L")
      (.cons (exORD "A" "2023-06-01" "L") .nil))

/-- An obligor document whose container carries a leaf `XYZ` that belongs to
no field dictionary. -/
def exDocBad : Element :=
  .mk (RATINGS_NAMESPACE ++ "ROCRA") none
    (.cons (nsLeaf "RAN" "ACME Ratings")
      (.cons (.mk (RATINGS_NAMESPACE ++ "OD") none
        (.cons (nsLeaf "XYZ" "junk")
          (.cons (exORD "BBB" "2022-06-01" "L") .nil))) .nil))

/-- The single record `exDocBad` flattens to; its key `XYZ` is outside the
obligor field names. -/
def exRecBad : Dict :=
  [("R", some "BBB"), ("RAD", some "2022-06-01"), ("RT", some "L"),
   ("XYZ", some "junk"), ("RAN", some "ACME Ratings"), ("FCD", none)]

/-- The CSV row `exRec1` renders to under the obligor field names. -/
def exRow1 : List String :=
  ["ACME Ratings", "2023-01-01", "", "", "Obligor Inc", "", "", "", "", "",
   "", "BBB", "2022-06-01", "", "", "", "", "L", "", ""]

/-- The CSV row `exRec2` renders to under the obligor field names. -/
def exRow2 : List String :=
  ["ACME Ratings", "2023-01-01", "", "", "Obligor Inc", "", "", "", "", "",
   "", "A", "2023-06-01", "", "", "", "", "L", "", ""]

section AssocLemmas

variable {κ α : Type} [DecidableEq κ]

theorem alGet_alSet (d : List (κ × α)) (k k' : κ) (v : α) :
    alGet (alSet d k v) k' = if k' = k then some v else alGet d k' := by
  induction d with
  | nil =>
    by_cases h : k' = k
    · subst h
      simp [alSet, alGet]
    · simp [alSet, alGet, h, Ne.symm h]
  | cons p rest ih =>
    by_cases hpk : p.1 = k
    · by_cases h : k' = k
      · subst h
        simp [alSet, alGet, hpk]
      · simp [alSet, alGet, hpk, h, Ne.symm h]
    · by_cases h : k' = k
      · subst h
        simp [alSet, alGet, hpk, ih]
      · by_cases hpk' : p.1 = k' <;> simp [alSet, alGet, hpk, hpk', ih, h]

theorem mem_keys_alSet (d : List (κ × α)) (k : κ) (v : α) (a : κ) :
    a ∈ (alSet d k v).map Prod.fst ↔ a ∈ d.map Prod.fst ∨ a = k := by
  induction d with
  | nil => simp [alSet]
  | cons p rest ih =>
    by_cases hpk : p.1 = k <;> simp [alSet, hpk, ih] <;> tauto

theorem nodupKeys_alSet {d : List (κ × α)} (h : (d.map Prod.fst).Nodup)
    (k : κ) (v : α) : ((alSet d k v).map Prod.fst).Nodup := by
  induction d with
  | nil => simp [alSet]
  | cons p rest ih =>
    rw [List.map_cons, List.nodup_cons] at h
    by_cases hpk : p.1 = k
    · simp only [alSet, hpk, if_true, List.map_cons, List.nodup_cons]
      exact ⟨hpk ▸ h.1, h.2⟩
    · simp only [alSet, hpk, if_false, List.map_cons, List.nodup_cons]
      refine ⟨fun hmem => ?_, ih h.2⟩
      rcases (mem_keys_alSet rest k v p.1).1 hmem with h1 | h1
      · exact h.1 h1
      · exact hpk h1

theorem alGet_eq_none_iff (d : List (κ × α)) (k : κ) :
    alGet d k = none ↔ k ∉ d.map Prod.fst := by
  induction d with
  | nil => simp [alGet]
  | cons p rest ih =>
    by_cases hpk : p.1 = k
    · simp [alGet, hpk, ih]
    · simp [alGet, hpk, ih]
      tauto

theorem mem_of_alGet_eq_some {d : List (κ × α)} {k : κ} {v : α}
    (h : alGet d k = some v) : (k, v) ∈ d := by
  induction d with
  | nil => simp [alGet] at h
  | cons p rest ih =>
    by_cases hpk : p.1 = k
    · simp only [alGet, hpk, if_true, Option.some.injEq] at h
      exact List.mem_cons.2 (Or.inl (by rw [← h, ← hpk]))
    · simp only [alGet, hpk, if_false] at h
      exact List.mem_cons_of_mem _ (ih h)

theorem alGet_eq_some_of_mem {d : List (κ × α)} (h : (d.map Prod.fst).Nodup)
    {k : κ} {v : α} (hmem : (k, v) ∈ d) : alGet d k = some v := by
  induction d with
  | nil => simp at hmem
  | cons p rest ih =>
    rw [List.map_cons, List.nodup_cons] at h
    rcases List.mem_cons.1 hmem with h1 | h1
    · rw [← h1]
      simp [alGet]
    · have hk : k ∈ rest.map Prod.fst :=
        List.mem_map.2 ⟨(k, v), h1, rfl⟩
      have hpk : p.1 ≠ k := fun he => h.1 (he ▸ hk)
      simp only [alGet, hpk, if_false]
      exact ih h.2 h1

theorem mem_alSet_iff {d : List (κ × α)} (h : (d.map Prod.fst).Nodup)
    (a k : κ) (b v : α) :
    (a, b) ∈ alSet d k v ↔ (a = k ∧ b = v) ∨ ((a, b) ∈ d ∧ a ≠ k) := by
  induction d with
  | nil => simp [alSet, and_comm]
  | cons p rest ih =>
    rw [List.map_cons, List.nodup_cons] at h
    by_cases hpk : p.1 = k
    · simp only [alSet, hpk, if_true, List.mem_cons]
      constructor
      · rintro (h1 | h1)
        · left
          exact ⟨congrArg Prod.fst h1, congrArg Prod.snd h1⟩
        · have ha : a ∈ rest.map Prod.fst := List.mem_map.2 ⟨(a, b), h1, rfl⟩
          have : a ≠ k := fun he => h.1 (hpk ▸ he ▸ ha)
          exact Or.inr ⟨Or.inr h1, this⟩
      · rintro (⟨h1, h2⟩ | ⟨h1 | h1, h2⟩)
        · left
          rw [h1, h2]
        · exact absurd ((congrArg Prod.fst h1).trans hpk) h2
        · exact Or.inr h1
    · simp only [alSet, hpk, if_false, List.mem_cons, ih h.2]
      constructor
      · rintro (h1 | h1 | h1)
        · have : a ≠ k := fun he =>
            hpk (((congrArg Prod.fst h1).symm.trans he))
          exact Or.inr ⟨Or.inl h1, this⟩
        · exact Or.inl h1
        · exact Or.inr ⟨Or.inr h1.1, h1.2⟩
      · rintro (h1 | ⟨h1 | h1, h2⟩)
        · exact Or.inr (Or.inl h1)
        · exact Or.inl h1
        · exact Or.inr (Or.inr ⟨h1, h2⟩)

theorem mem_alSet_self (d : List (κ × α)) (k : κ) (v : α) :
    (k, v) ∈ alSet d k v := by
  induction d with
  | nil => simp [alSet]
  | cons p rest ih =>
    by_cases hpk : p.1 = k <;> simp [alSet, hpk, ih]

end AssocLemmas

theorem Dict.get_set (d : Dict) (k k' : String) (v : Option String) :
    Dict.get (Dict.set d k v) k' = if k' = k then some v else Dict.get d k' :=
  alGet_alSet d k k' v

theorem Dict.get_update (t : Dict) : ∀ (r : Dict) (k : String),
    Dict.get (Dict.update r t) k =
      match lastGet t k with
      | some v => some v
      | none => Dict.get r k := by
  induction t with
  | nil => intro r k; rfl
  | cons p t ih =>
    intro r k
    show Dict.get (Dict.update (Dict.set r p.1 p.2) t) k = _
    rw [ih]
    by_cases h : p.1 = k
    · subst h
      cases hl : lastGet t p.1 with
      | some v => simp [lastGet, hl]
      | none => simp [lastGet, hl, Dict.get_set]
    · cases hl : lastGet t k with
      | some v => simp [lastGet, hl]
      | none =>
        have h2 : ¬ k = p.1 := fun he => h he.symm
        simp [lastGet, hl, Dict.get_set, h, h2]

theorem lastGet_eq_none_of_not_mem {d : List (String × Option String)}
    {k : String} (h : k ∉ d.map Prod.fst) : lastGet d k = none := by
  induction d with
  | nil => rfl
  | cons p t ih =>
    simp only [List.map_cons, List.mem_cons] at h
    push_neg at h
    have h1 : ¬ p.1 = k := fun he => h.1 he.symm
    simp [lastGet, ih h.2, h1]

theorem lastGet_eq_get {d : Dict} (h : (d.map Prod.fst).Nodup) (k : String) :
    lastGet d k = Dict.get d k := by
  induction d with
  | nil => rfl
  | cons p t ih =>
    rw [List.map_cons, List.nodup_cons] at h
    by_cases hpk : p.1 = k
    · have hk : k ∉ t.map Prod.fst := hpk ▸ h.1
      simp [lastGet, lastGet_eq_none_of_not_mem hk, hpk, Dict.get, alGet]
    · rw [Dict.get]
      simp only [lastGet, ih h.2, alGet, hpk, if_false]
      cases hgt : alGet t k <;> simp [Dict.get, hgt]

theorem nodupKeys_update {t : Dict} : ∀ {r : Dict},
    ((r.map Prod.fst).Nodup) → (((Dict.update r t).map Prod.fst).Nodup) := by
  induction t with
  | nil => intro r h; exact h
  | cons p t ih =>
    intro r h
    exact ih (nodupKeys_alSet h p.1 p.2)

theorem update_append (a b : List (String × Option String)) : ∀ (r : Dict),
    Dict.update r (a ++ b) = Dict.update (Dict.update r a) b := by
  induction a with
  | nil => intro r; rfl
  | cons p a ih =>
    intro r
    show Dict.update (Dict.set r p.1 p.2) (a ++ b) = _
    rw [ih]
    rfl

/-- Definitional unfolding of `walk` on the empty worklist. -/
theorem walk_nil (st : Option String) (tr : Option Transform) (d0 : Dict)
    (rs0 : List Dict) : walk st tr .nil d0 rs0 = .ok (d0, rs0) := rfl

/-- `walk` on an item-tagged head: recursively flatten it and append the
resulting sub-records. -/
theorem walk_cons_item {st : Option String} (tr : Option Transform)
    {t : String} (x : Option String) (cs : ElementList) (rest : ElementList)
    (d0 : Dict) (rs0 : List Dict) (h : some t = st) :
    walk st tr (.cons (.mk t x cs) rest) d0 rs0 =
      match element_to_records (.mk t x cs) tr with
      | .error e => .error e
      | .ok recs => walk st tr rest d0 (rs0 ++ recs) := by
  rw [walk.eq_def]
  cases cs <;> simp [h]

/-- `walk` on a non-item leaf head: store its text under its stripped tag. -/
theorem walk_cons_leaf {st : Option String} (tr : Option Transform)
    {t : String} (x : Option String) (rest : ElementList) (d0 : Dict)
    (rs0 : List Dict) (h : ¬ some t = st) :
    walk st tr (.cons (.mk t x .nil) rest) d0 rs0 =
      walk st tr rest (Dict.set d0 (strip40 t) x) rs0 := by
  rw [walk.eq_def]
  simp [h]

/-- `walk` on a non-item non-leaf head: traverse its children first, then the
remaining work list. -/
theorem walk_cons_branch {st : Option String} (tr : Option Transform)
    {t : String} (x : Option String) (c : Element) (crest : ElementList)
    (rest : ElementList) (d0 : Dict) (rs0 : List Dict) (h : ¬ some t = st) :
    walk st tr (.cons (.mk t x (.cons c crest)) rest) d0 rs0 =
      match walk st tr (.cons c crest) d0 rs0 with
      | .error e => .error e
      | .ok (this2, records2) => walk st tr rest this2 records2 := by
  rw [walk.eq_def]
  simp [h]

/-- Definitional unfolding of `element_to_records`. -/
theorem element_to_records_mk (t : String) (x : Option String)
    (cs : ElementList) (tr : Option Transform) :
    element_to_records (.mk t x cs) tr =
      match walk (seqLookup t) tr cs [] [] with
      | .error e => .error e
      | .ok (this_, records) =>
        let records2 :=
          match seqLookup t with
          | none => [this_]
          | some _ => records.map (fun record => Dict.update record this_)
        match tr with
        | none => .ok records2
        | some f => f records2 (.mk t x cs) := rfl

theorem collectLeaves_nil (st : Option String) : collectLeaves st .nil = [] := rfl

/-- `collectLeaves` skips an item-tagged head. -/
theorem collectLeaves_item {st : Option String} {t : String}
    (x : Option String) (cs : ElementList) (rest : ElementList)
    (h : some t = st) :
    collectLeaves st (.cons (.mk t x cs) rest) = collectLeaves st rest := by
  rw [collectLeaves.eq_def]
  cases cs <;> simp [h]

/-- `collectLeaves` records a non-item leaf head. -/
theorem collectLeaves_leaf {st : Option String} {t : String}
    (x : Option String) (rest : ElementList) (h : ¬ some t = st) :
    collectLeaves st (.cons (.mk t x .nil) rest) =
      (strip40 t, x) :: collectLeaves st rest := by
  rw [collectLeaves.eq_def]
  simp [h]

/-- `collectLeaves` descends into a non-item non-leaf head. -/
theorem collectLeaves_branch {st : Option String} {t : String}
    (x : Option String) (c : Element) (crest : ElementList)
    (rest : ElementList) (h : ¬ some t = st) :
    collectLeaves st (.cons (.mk t x (.cons c crest)) rest) =
      collectLeaves st (.cons c crest) ++ collectLeaves st rest := by
  rw [collectLeaves.eq_def]
  simp [h]

theorem esizeList_cons (t : String) (x : Option String) (cs : ElementList)
    (rest : ElementList) :
    esizeList (.cons (.mk t x cs) rest) = 1 + esizeList cs + esizeList rest := rfl

theorem walk_this_aux (n : Nat) : ∀ (es : ElementList), esizeList es ≤ n →
    ∀ (st : Option String) (tr : Option Transform) (d0 : Dict) (rs0 : List Dict)
      (d1 : Dict) (rs1 : List Dict),
    walk st tr es d0 rs0 = .ok (d1, rs1) →
    d1 = Dict.update d0 (collectLeaves st es) := by
  induction n with
  | zero =>
    intro es hsz st tr d0 rs0 d1 rs1 h
    cases es with
    | nil =>
      rw [walk_nil] at h
      injection h with h2
      injection h2 with ha hb
      subst ha
      rfl
    | cons e rest =>
      exfalso
      cases e with
      | mk t x cs =>
        rw [esizeList_cons] at hsz
        omega
  | succ n ih =>
    intro es hsz st tr d0 rs0 d1 rs1 h
    cases es with
    | nil =>
      rw [walk_nil] at h
      injection h with h2
      injection h2 with ha hb
      subst ha
      rfl
    | cons e rest =>
      cases e with
      | mk t x cs =>
      rw [esizeList_cons] at hsz
      have hsz2 : esizeList rest ≤ n := by omega
      have hsz3 : esizeList cs ≤ n := by omega
      by_cases hitem : some t = st
      · rw [walk_cons_item tr x cs rest d0 rs0 hitem] at h
        cases her : element_to_records (.mk t x cs) tr with
        | error e2 => rw [her] at h; cases h
        | ok recs =>
          rw [her] at h
          have hrec := ih rest hsz2 st tr d0 (rs0 ++ recs) d1 rs1 h
          rw [collectLeaves_item x cs rest hitem]
          exact hrec
      · cases cs with
        | nil =>
          rw [walk_cons_leaf tr x rest d0 rs0 hitem] at h
          have hrec := ih rest hsz2 st tr (Dict.set d0 (strip40 t) x) rs0 d1 rs1 h
          rw [collectLeaves_leaf x rest hitem, hrec]
          rfl
        | cons c crest =>
          rw [walk_cons_branch tr x c crest rest d0 rs0 hitem] at h
          cases hw : walk st tr (.cons c crest) d0 rs0 with
          | error e2 => rw [hw] at h; cases h
          | ok pair =>
            obtain ⟨da, ra⟩ := pair
            rw [hw] at h
            have h1 := ih (.cons c crest) hsz3 st tr d0 rs0 da ra hw
            have h2 := ih rest hsz2 st tr da ra d1 rs1 h
            rw [collectLeaves_branch x c crest rest hitem]
            rw [update_append, ← h1, h2]

/-- The shared-context accumulator computed by the worklist loop: starting
from `d0`, it is exactly the left-to-right sequence of stores of all non-item
leaves in document order. -/
theorem walk_this {st : Option String} {tr : Option Transform}
    {es : ElementList} {d0 : Dict} {rs0 : List Dict} {d1 : Dict}
    {rs1 : List Dict} (h : walk st tr es d0 rs0 = .ok (d1, rs1)) :
    d1 = Dict.update d0 (collectLeaves st es) :=
  walk_this_aux (esizeList es) es le_rfl st tr d0 rs0 d1 rs1 h

/-- List-spine induction for `ElementList` (no induction on the elements
themselves), usable where `induction` cannot handle the mutual recursor. -/
theorem ElementList.spineInd {motive : ElementList → Prop}
    (hnil : motive .nil)
    (hcons : ∀ e rest, motive rest → motive (.cons e rest)) :
    ∀ es, motive es
  | .nil => hnil
  | .cons e rest => hcons e rest (ElementList.spineInd hnil hcons rest)

theorem walk_leaves (st : Option String) (tr : Option Transform) :
    ∀ (cs : ElementList) (d0 : Dict) (rs0 : List Dict),
    (∀ c ∈ cs.toList, c.children = ElementList.nil ∧ ¬ some c.tag = st) →
    walk st tr cs d0 rs0 = .ok (Dict.update d0 (leafPairs cs), rs0) := by
  intro cs
  induction cs using ElementList.spineInd with
  | hnil => intro d0 rs0 h; rfl
  | hcons e rest ih =>
    intro d0 rs0 h
    cases e with
    | mk t x ecs =>
      have hh := h (.mk t x ecs) (by simp [ElementList.toList])
      have hecs : ecs = ElementList.nil := hh.1
      subst hecs
      have hnot : ¬ some t = st := hh.2
      rw [walk_cons_leaf tr x rest d0 rs0 hnot]
      rw [ih (Dict.set d0 (strip40 t) x) rs0
        (fun c hc => h c (by simp [ElementList.toList, hc]))]
      rfl

/-- Flattening an element that is not a sequence container and whose children
are all leaves yields exactly one record: the dict of its leaves. -/
theorem element_to_records_simple (t : String) (x : Option String)
    (cs : ElementList) (hseq : seqLookup t = none)
    (hleaves : ∀ c ∈ cs.toList, c.children = ElementList.nil) :
    element_to_records (.mk t x cs) none = .ok [leafDict cs] := by
  rw [element_to_records_mk, hseq]
  rw [walk_leaves none none cs [] []
    (fun c hc => ⟨hleaves c hc, by simp⟩)]
  rfl

/-- `walk` over a one-level sequence body: items (no nested sequences, leaf
fields only) contribute one record each in document order, and the remaining
children, all leaves, build the shared context. -/
theorem walk_items (it : String) : ∀ (cs : ElementList) (d0 : Dict) (rs0 : List Dict),
    (∀ c ∈ cs.toList,
      (c.tag = it ∧ seqLookup c.tag = none ∧
        (∀ g ∈ c.children.toList, g.children = ElementList.nil)) ∨
      (c.tag ≠ it ∧ c.children = ElementList.nil)) →
    walk (some it) none cs d0 rs0 =
      .ok (Dict.update d0 (collectLeaves (some it) cs),
           rs0 ++ (cs.toList.filter (fun c => c.tag == it)).map
             (fun c => leafDict c.children)) := by
  intro cs
  induction cs using ElementList.spineInd with
  | hnil =>
    intro d0 rs0 h
    simp only [collectLeaves_nil, ElementList.toList, List.filter_nil,
      List.map_nil, List.append_nil, walk_nil]
    rfl
  | hcons e rest ih =>
    intro d0 rs0 h
    cases e with
    | mk t x ecs =>
      have hh := h (.mk t x ecs) (by simp [ElementList.toList])
      have htail : ∀ c ∈ rest.toList,
          (c.tag = it ∧ seqLookup c.tag = none ∧
            (∀ g ∈ c.children.toList, g.children = ElementList.nil)) ∨
          (c.tag ≠ it ∧ c.children = ElementList.nil) :=
        fun c hc => h c (by simp [ElementList.toList, hc])
      rcases hh with ⟨hit, hs, hl⟩ | ⟨hne, hecs⟩
      · have hit2 : t = it := hit
        have hsome : some t = some it := by rw [hit2]
        have hs2 : seqLookup t = none := hs
        have hstep : walk (some it) none (.cons (.mk t x ecs) rest) d0 rs0 =
            walk (some it) none rest d0 (rs0 ++ [leafDict ecs]) := by
          rw [walk_cons_item none x ecs rest d0 rs0 hsome]
          rw [element_to_records_simple t x ecs hs2 (fun g hg => hl g hg)]
        rw [hstep, ih d0 (rs0 ++ [leafDict ecs]) htail]
        rw [collectLeaves_item x ecs rest hsome]
        have hfil : ((ElementList.cons (.mk t x ecs) rest).toList.filter
            (fun c => c.tag == it)) =
            (.mk t x ecs) :: rest.toList.filter (fun c => c.tag == it) := by
          simp only [ElementList.toList, List.filter_cons]
          rw [if_pos (by simp [Element.tag, hit2])]
        rw [hfil, List.map_cons]
        conv_rhs => rw [List.append_cons]
        rfl
      · have hne2 : t ≠ it := hne
        have hnot : ¬ some t = some it := fun he => hne2 (Option.some.inj he)
        have hecs2 : ecs = ElementList.nil := hecs
        subst hecs2
        rw [walk_cons_leaf none x rest d0 rs0 hnot]
        rw [ih (Dict.set d0 (strip40 t) x) rs0 htail]
        rw [collectLeaves_leaf x rest hnot]
        have hfil : ((ElementList.cons (.mk t x .nil) rest).toList.filter
            (fun c => c.tag == it)) =
            rest.toList.filter (fun c => c.tag == it) := by
          simp only [ElementList.toList, List.filter_cons]
          rw [if_neg (by simp [Element.tag, hne2])]
        rw [hfil]
        rfl

theorem get?_append_left {α : Type} {l1 l2 : List α} {i : Nat} {a : α}
    (h : l1.get? i = some a) : (l1 ++ l2).get? i = some a := by
  have hi : i < l1.length := (List.get?_eq_some.1 h).1
  rw [List.get?_append hi]
  exact h

theorem get?_append_singleton {α : Type} {l : List α} {a : α} {j : Nat} {b : α}
    (h : (l ++ [a]).get? j = some b) :
    (j < l.length ∧ l.get? j = some b) ∨ (j = l.length ∧ b = a) := by
  by_cases hj : j < l.length
  · left
    refine ⟨hj, ?_⟩
    rw [← List.get?_append hj]
    exact h
  · right
    have hj1 : j < (l ++ [a]).length := (List.get?_eq_some.1 h).1
    rw [List.length_append, List.length_singleton] at hj1
    have hj2 : j = l.length := by omega
    subst hj2
    rw [List.get?_concat_length] at h
    exact ⟨rfl, (Option.some.inj h).symm⟩

theorem get?_concat_self {α : Type} (l : List α) (a : α) :
    (l ++ [a]).get? l.length = some a :=
  List.get?_concat_length l a

theorem no_entry_of_get_none {bt : KeyDict} {k : RKey}
    (h : KeyDict.get bt k = none) : ∀ rr, (k, rr) ∉ bt := by
  intro rr hmem
  have hk : k ∈ bt.map Prod.fst := List.mem_map.2 ⟨(k, rr), hmem, rfl⟩
  exact absurd hk ((alGet_eq_none_iff bt k).1 h)

/-- Processing a record dated after the cutoff leaves the invariant intact. -/
theorem InvAt_skip_gt {asof : Nat} {done : List Dict} {bt : KeyDict}
    {record : Dict} {rad : Nat} (hinv : InvAt asof done bt)
    (hr : recRad record = .ok rad) (hgt : asof < rad) :
    InvAt asof (done ++ [record]) bt := by
  refine ⟨hinv.nodup, ?_, ?_⟩
  · intro k r hmem
    obtain ⟨hkey, i, radr, hi, hradr, hler, hbound⟩ := hinv.entries k r hmem
    refine ⟨hkey, i, radr, get?_append_left hi, hradr, hler, ?_⟩
    intro j r' rad' hj hk' hr' hle'
    rcases get?_append_singleton hj with ⟨hjlt, hj2⟩ | ⟨hjeq, hr2⟩
    · exact hbound j r' rad' hj2 hk' hr' hle'
    · subst hr2
      have hradeq : rad = rad' := Except.ok.inj (hr.symm.trans hr')
      exact absurd hle' (by omega)
  · intro j r' hj hqual
    rcases get?_append_singleton hj with ⟨hjlt, hj2⟩ | ⟨hjeq, hr2⟩
    · exact hinv.complete j r' hj2 hqual
    · subst hr2
      obtain ⟨rad', hr', hle'⟩ := hqual
      have hradeq : rad = rad' := Except.ok.inj (hr.symm.trans hr')
      omega

theorem KeyDict.get_def (d : KeyDict) (k : RKey) : KeyDict.get d k = alGet d k := rfl

theorem KeyDict.set_def (d : KeyDict) (k : RKey) (v : Dict) :
    KeyDict.set d k v = alSet d k v := rfl

/-- Storing a qualifying record under a key not yet present preserves the
invariant. -/
theorem InvAt_insert_new {asof : Nat} {done : List Dict} {bt : KeyDict}
    {record : Dict} {rad : Nat} (hinv : InvAt asof done bt)
    (hr : recRad record = .ok rad) (hle : rad ≤ asof)
    (hold : KeyDict.get bt (recKey record) = none) :
    InvAt asof (done ++ [record]) (KeyDict.set bt (recKey record) record) := by
  refine ⟨by rw [KeyDict.set_def]; exact nodupKeys_alSet hinv.nodup _ _, ?_, ?_⟩
  · intro k r hmem
    rw [KeyDict.set_def] at hmem
    rcases (mem_alSet_iff hinv.nodup k (recKey record) r record).1 hmem with
      ⟨hk, hrr⟩ | ⟨hmem2, hne⟩
    · subst hk
      subst hrr
      refine ⟨rfl, done.length, rad, get?_concat_self done r, hr, hle, ?_⟩
      intro j r' rad' hj hk' hr' hle'
      rcases get?_append_singleton hj with ⟨hjlt, hj2⟩ | ⟨hjeq, hr2⟩
      · exfalso
        obtain ⟨rr, hrr2⟩ := hinv.complete j r' hj2 ⟨rad', hr', hle'⟩
        rw [hk'] at hrr2
        exact no_entry_of_get_none hold rr hrr2
      · subst hr2
        have hradeq : rad = rad' := Except.ok.inj (hr.symm.trans hr')
        exact ⟨by omega, fun hjlt2 => by omega⟩
    · obtain ⟨hkey, i, radr, hi, hradr, hler, hbound⟩ := hinv.entries k r hmem2
      refine ⟨hkey, i, radr, get?_append_left hi, hradr, hler, ?_⟩
      intro j r' rad' hj hk' hr' hle'
      rcases get?_append_singleton hj with ⟨hjlt, hj2⟩ | ⟨hjeq, hr2⟩
      · exact hbound j r' rad' hj2 hk' hr' hle'
      · subst hr2
        exact absurd hk'.symm hne
  · intro j r' hj hqual
    rcases get?_append_singleton hj with ⟨hjlt, hj2⟩ | ⟨hjeq, hr2⟩
    · obtain ⟨rr, hrr⟩ := hinv.complete j r' hj2 hqual
      by_cases hk : recKey r' = recKey record
      · refine ⟨record, ?_⟩
        rw [hk, KeyDict.set_def]
        exact mem_alSet_self bt _ record
      · refine ⟨rr, ?_⟩
        rw [KeyDict.set_def]
        exact (mem_alSet_iff hinv.nodup _ _ _ _).2 (Or.inr ⟨hrr, hk⟩)
    · subst hr2
      refine ⟨r', ?_⟩
      rw [KeyDict.set_def]
      exact mem_alSet_self bt _ r'

/-- Replacing the stored record of a key by a strictly more recent qualifying
record preserves the invariant. -/
theorem InvAt_insert_replace {asof : Nat} {done : List Dict} {bt : KeyDict}
    {record old : Dict} {rad orad : Nat} (hinv : InvAt asof done bt)
    (hr : recRad record = .ok rad) (hle : rad ≤ asof)
    (hold : KeyDict.get bt (recKey record) = some old)
    (horad : recRad old = .ok orad) (hlt : orad < rad) :
    InvAt asof (done ++ [record]) (KeyDict.set bt (recKey record) record) := by
  have hmemold : (recKey record, old) ∈ bt := by
    rw [KeyDict.get_def] at hold
    exact mem_of_alGet_eq_some hold
  refine ⟨by rw [KeyDict.set_def]; exact nodupKeys_alSet hinv.nodup _ _, ?_, ?_⟩
  · intro k r hmem
    rw [KeyDict.set_def] at hmem
    rcases (mem_alSet_iff hinv.nodup k (recKey record) r record).1 hmem with
      ⟨hk, hrr⟩ | ⟨hmem2, hne⟩
    · subst hk
      subst hrr
      refine ⟨rfl, done.length, rad, get?_concat_self done r, hr, hle, ?_⟩
      intro j r' rad' hj hk' hr' hle'
      rcases get?_append_singleton hj with ⟨hjlt, hj2⟩ | ⟨hjeq, hr2⟩
      · obtain ⟨hkeyo, io, rado, hio, hrado, hleo, hboundo⟩ :=
          hinv.entries _ old hmemold
        have hrado2 : rado = orad := Except.ok.inj (hrado.symm.trans horad)
        have hb := hboundo j r' rad' hj2 hk' hr' hle'
        exact ⟨by omega, fun hjlt2 => by omega⟩
      · subst hr2
        have hradeq : rad = rad' := Except.ok.inj (hr.symm.trans hr')
        exact ⟨by omega, fun hjlt2 => by omega⟩
    · obtain ⟨hkey, i, radr, hi, hradr, hler, hbound⟩ := hinv.entries k r hmem2
      refine ⟨hkey, i, radr, get?_append_left hi, hradr, hler, ?_⟩
      intro j r' rad' hj hk' hr' hle'
      rcases get?_append_singleton hj with ⟨hjlt, hj2⟩ | ⟨hjeq, hr2⟩
      · exact hbound j r' rad' hj2 hk' hr' hle'
      · subst hr2
        exact absurd hk'.symm hne
  · intro j r' hj hqual
    rcases get?_append_singleton hj with ⟨hjlt, hj2⟩ | ⟨hjeq, hr2⟩
    · obtain ⟨rr, hrr⟩ := hinv.complete j r' hj2 hqual
      by_cases hk : recKey r' = recKey record
      · refine ⟨record, ?_⟩
        rw [hk, KeyDict.set_def]
        exact mem_alSet_self bt _ record
      · refine ⟨rr, ?_⟩
        rw [KeyDict.set_def]
        exact (mem_alSet_iff hinv.nodup _ _ _ _).2 (Or.inr ⟨hrr, hk⟩)
    · subst hr2
      refine ⟨r', ?_⟩
      rw [KeyDict.set_def]
      exact mem_alSet_self bt _ r'

/-- Keeping the stored record when the incoming qualifying record is not
strictly more recent preserves the invariant. -/
theorem InvAt_keep {asof : Nat} {done : List Dict} {bt : KeyDict}
    {record old : Dict} {rad orad : Nat} (hinv : InvAt asof done bt)
    (hr : recRad record = .ok rad) (hle : rad ≤ asof)
    (hold : KeyDict.get bt (recKey record) = some old)
    (horad : recRad old = .ok orad) (hnlt : ¬ orad < rad) :
    InvAt asof (done ++ [record]) bt := by
  have hmemold : (recKey record, old) ∈ bt := by
    rw [KeyDict.get_def] at hold
    exact mem_of_alGet_eq_some hold
  refine ⟨hinv.nodup, ?_, ?_⟩
  · intro k r hmem
    obtain ⟨hkey, i, radr, hi, hradr, hler, hbound⟩ := hinv.entries k r hmem
    have hilt : i < done.length := (List.get?_eq_some.1 hi).1
    refine ⟨hkey, i, radr, get?_append_left hi, hradr, hler, ?_⟩
    intro j r' rad' hj hk' hr' hle'
    rcases get?_append_singleton hj with ⟨hjlt, hj2⟩ | ⟨hjeq, hr2⟩
    · exact hbound j r' rad' hj2 hk' hr' hle'
    · subst hr2
      have hkeq : k = recKey r' := hk'.symm
      subst hkeq
      have hreq : r = old := by
        have h1 := alGet_eq_some_of_mem hinv.nodup hmem
        rw [KeyDict.get_def] at hold
        exact Option.some.inj (h1.symm.trans hold)
      subst hreq
      have hradr2 : radr = orad := Except.ok.inj (hradr.symm.trans horad)
      have hradeq : rad = rad' := Except.ok.inj (hr.symm.trans hr')
      exact ⟨by omega, fun hjlt2 => by omega⟩
  · intro j r' hj hqual
    rcases get?_append_singleton hj with ⟨hjlt, hj2⟩ | ⟨hjeq, hr2⟩
    · exact hinv.complete j r' hj2 hqual
    · subst hr2
      exact ⟨old, hmemold⟩

/-- The As-Of loop invariant: starting from a `by_type` accumulator that is
sound and complete for the processed prefix `done`, a successful run of the
remaining records extends soundness and completeness to `done ++ rem`. -/
theorem asofFold_inv (asof : Nat) : ∀ (rem done : List Dict) (bt out : KeyDict),
    InvAt asof done bt →
    asofFold asof rem bt = .ok out →
    InvAt asof (done ++ rem) out := by
  intro rem
  induction rem with
  | nil =>
    intro done bt out hinv h
    simp only [asofFold] at h
    injection h with h2
    subst h2
    simpa using hinv
  | cons record rest ih =>
    intro done bt out hinv h
    cases hr : recRad record with
    | error e =>
      simp only [asofFold, hr] at h
      cases h
    | ok rad =>
      simp only [asofFold, hr] at h
      by_cases hgt : asof < rad
      · rw [if_pos hgt] at h
        have h2 := ih (done ++ [record]) bt out (InvAt_skip_gt hinv hr hgt) h
        rw [List.append_assoc] at h2
        exact h2
      · rw [if_neg hgt] at h
        have hle : rad ≤ asof := Nat.not_lt.1 hgt
        cases hold : KeyDict.get bt (recKey record) with
        | none =>
          simp only [hold] at h
          have h2 := ih (done ++ [record]) _ out
            (InvAt_insert_new hinv hr hle hold) h
          rw [List.append_assoc] at h2
          exact h2
        | some old =>
          simp only [hold] at h
          cases hor : recRad old with
          | error e =>
            simp only [hor] at h
            cases h
          | ok orad =>
            simp only [hor] at h
            by_cases hlt : orad < rad
            · rw [if_pos hlt] at h
              have h2 := ih (done ++ [record]) _ out
                (InvAt_insert_replace hinv hr hle hold hor hlt) h
              rw [List.append_assoc] at h2
              exact h2
            · rw [if_neg hlt] at h
              have h2 := ih (done ++ [record]) bt out
                (InvAt_keep hinv hr hle hold hor hlt) h
              rw [List.append_assoc] at h2
              exact h2

/-- The invariant holds initially: nothing processed, empty `by_type`. -/
theorem InvAt_start (asof : Nat) : InvAt asof [] [] := by
  refine ⟨List.nodup_nil, ?_, ?_⟩
  · intro k r hmem
    simp at hmem
  · intro j r' hj hqual
    simp at hj

/-- A successful run of `filter_records` on a rating-detail container comes
from a `by_type` accumulator satisfying the full invariant, and the output is
its list of stored records in key-insertion order. -/
theorem filter_records_inv {asof : Nat} {records : List Dict}
    {element : Element} {out : List Dict}
    (htag : element.tag ∈ rating_detail_tags)
    (h : filter_records asof records element = .ok out) :
    ∃ by_type, asofFold asof records [] = .ok by_type ∧
      out = by_type.map Prod.snd ∧ InvAt asof records by_type := by
  rw [filter_records, if_pos htag] at h
  cases hf : asofFold asof records [] with
  | error e => rw [hf] at h; cases h
  | ok by_type =>
    rw [hf] at h
    injection h with h2
    refine ⟨by_type, rfl, h2.symm, ?_⟩
    have := asofFold_inv asof records [] [] by_type (InvAt_start asof) hf
    simpa using this

theorem countP_congr_members {α : Type} {p q : α → Bool} :
    ∀ l : List α, (∀ a ∈ l, p a = q a) → l.countP p = l.countP q := by
  intro l
  induction l with
  | nil => intro h; rfl
  | cons a l ih =>
    intro h
    rw [List.countP_cons, List.countP_cons, ih (fun b hb => h b (by simp [hb])),
      h a (by simp)]

theorem countP_key_le_one {bt : KeyDict} (h : (bt.map Prod.fst).Nodup)
    (k : RKey) : bt.countP (fun p => decide (p.1 = k)) ≤ 1 := by
  induction bt with
  | nil => simp
  | cons q rest ih =>
    rw [List.map_cons, List.nodup_cons] at h
    rw [List.countP_cons]
    by_cases hq : q.1 = k
    · have hz : rest.countP (fun p => decide (p.1 = k)) = 0 := by
        rw [List.countP_eq_zero]
        intro p hp
        simp only [decide_eq_true_eq]
        intro hpk
        exact h.1 (hq ▸ hpk ▸ List.mem_map.2 ⟨p, hp, rfl⟩)
      simp [hz, hq]
    · simp [hq, ih h.2]

theorem countP_key_pos {bt : KeyDict} {k : RKey} {rr : Dict}
    (h : (k, rr) ∈ bt) : 1 ≤ bt.countP (fun p => decide (p.1 = k)) := by
  have hpos : 0 < bt.countP (fun p => decide (p.1 = k)) :=
    List.countP_pos.2 ⟨(k, rr), h, by simp⟩
  omega

/-- C2: for every list of rating records finalized at a rating-detail
container tag with a cutoff date, every input record whose rating-action-date
is strictly after the cutoff is discarded (each returned record comes from the
input and has a date ≤ the cutoff), the output contains at most one record per
distinct (rating type, rating subtype, rating type term) key — nulls being
valid key components — and each returned record's rating-action-date equals
the maximum rating-action-date among the same-key input records with date ≤
the cutoff. -/
theorem claim_C2 (asof : Nat) (records : List Dict) (element : Element)
    (out : List Dict) (htag : element.tag ∈ rating_detail_tags)
    (h : filter_records asof records element = .ok out) :
    (∀ r ∈ out, r ∈ records ∧ ∃ rad, recRad r = .ok rad ∧ rad ≤ asof ∧
      ∀ r' ∈ records, recKey r' = recKey r →
        ∀ rad', recRad r' = .ok rad' → rad' ≤ asof → rad' ≤ rad) ∧
    (out.map recKey).Nodup := by
  obtain ⟨bt, hfold, hout, hinv⟩ := filter_records_inv htag h
  subst hout
  constructor
  · intro r hr
    obtain ⟨p, hmem, hp⟩ := List.mem_map.1 hr
    obtain ⟨k, r0⟩ := p
    cases hp
    obtain ⟨hkey, i, rad, hi, hrad, hle, hbound⟩ := hinv.entries k r0 hmem
    refine ⟨List.get?_mem hi, rad, hrad, hle, ?_⟩
    intro r' hr' hk' rad' hrad' hle'
    obtain ⟨j, hj⟩ := List.mem_iff_get?.1 hr'
    exact (hbound j r' rad' hj (hk'.trans hkey) hrad' hle').1
  · have hmaps : (bt.map Prod.snd).map recKey = bt.map Prod.fst := by
      rw [List.map_map]
      exact List.map_congr_left (fun p hp => (hinv.entries p.1 p.2 hp).1)
    rw [hmaps]
    exact hinv.nodup

/-- C3 as stated is false: on an exact tie of the maximum rating-action-date
within a group, `by_type[key]` is only overwritten when the incoming date is
strictly larger, so the EARLIER record of the tie survives.  At this input the
two records share key and date, and the filter returns the first one. -/
theorem claim_C3_counterexample :
    filter_records 20231231
      [[("RAD", some "2023-06-01"), ("RT", some "L"), ("R", some "AAA")],
       [("RAD", some "2023-06-01"), ("RT", some "L"), ("R", some "BBB")]]
      (.mk (RATINGS_NAMESPACE ++ "OD") none .nil) =
      .ok [[("RAD", some "2023-06-01"), ("RT", some "L"), ("R", some "AAA")]] ∧
    ([("RAD", some "2023-06-01"), ("RT", some "L"), ("R", some "AAA")] : Dict) ≠
      [("RAD", some "2023-06-01"), ("RT", some "L"), ("R", some "BBB")] := by
  constructor
  · rfl
  · decide

/-- C3 amended: when two or more records of a group attain the same maximum
rating-action-date not after the cutoff, the As-Of filter returns the record
encountered EARLIEST in document order (the stored record is only replaced by
a strictly larger date): each returned record sits at an index `i` of the
input, and every same-key qualifying record at an index `j < i` has a strictly
smaller rating-action-date. -/
theorem claim_C3 (asof : Nat) (records : List Dict) (element : Element)
    (out : List Dict) (htag : element.tag ∈ rating_detail_tags)
    (h : filter_records asof records element = .ok out) :
    ∀ r ∈ out, ∃ i rad, records.get? i = some r ∧ recRad r = .ok rad ∧
      ∀ j r' rad', j < i → records.get? j = some r' → recKey r' = recKey r →
        recRad r' = .ok rad' → rad' ≤ asof → rad' < rad := by
  obtain ⟨bt, hfold, hout, hinv⟩ := filter_records_inv htag h
  subst hout
  intro r hr
  obtain ⟨p, hmem, hp⟩ := List.mem_map.1 hr
  obtain ⟨k, r0⟩ := p
  cases hp
  obtain ⟨hkey, i, rad, hi, hrad, hle, hbound⟩ := hinv.entries k r0 hmem
  refine ⟨i, rad, hi, hrad, ?_⟩
  intro j r' rad' hji hj hk' hrad' hle'
  exact (hbound j r' rad' hj (hk'.trans hkey) hrad' hle').2 hji

/-- C9: for a fixed record list and rating-detail element, widening the cutoff
from `asof1` to `asof2 ≥ asof1` never decreases the number of returned records
of any (rating type, subtype, term) group, and every returned record's
rating-action-date is bounded by the cutoff used. -/
theorem claim_C9 (asof1 asof2 : Nat) (records : List Dict) (element : Element)
    (out1 out2 : List Dict) (hcut : asof1 ≤ asof2)
    (htag : element.tag ∈ rating_detail_tags)
    (h1 : filter_records asof1 records element = .ok out1)
    (h2 : filter_records asof2 records element = .ok out2) :
    (∀ k : RKey, out1.countP (fun r => decide (recKey r = k)) ≤
      out2.countP (fun r => decide (recKey r = k))) ∧
    (∀ r ∈ out1, ∃ rad, recRad r = .ok rad ∧ rad ≤ asof1) ∧
    (∀ r ∈ out2, ∃ rad, recRad r = .ok rad ∧ rad ≤ asof2) := by
  obtain ⟨bt1, hfold1, hout1, hinv1⟩ := filter_records_inv htag h1
  obtain ⟨bt2, hfold2, hout2, hinv2⟩ := filter_records_inv htag h2
  subst hout1
  subst hout2
  refine ⟨?_, ?_, ?_⟩
  · intro k
    have hbr1 : (bt1.map Prod.snd).countP (fun r => decide (recKey r = k)) =
        bt1.countP (fun p => decide (p.1 = k)) := by
      rw [List.countP_map]
      exact countP_congr_members bt1
        (fun p hp => by simp [Function.comp, (hinv1.entries p.1 p.2 hp).1])
    have hbr2 : (bt2.map Prod.snd).countP (fun r => decide (recKey r = k)) =
        bt2.countP (fun p => decide (p.1 = k)) := by
      rw [List.countP_map]
      exact countP_congr_members bt2
        (fun p hp => by simp [Function.comp, (hinv2.entries p.1 p.2 hp).1])
    rw [hbr1, hbr2]
    by_cases hz : bt1.countP (fun p => decide (p.1 = k)) = 0
    · omega
    · have hpos : 0 < bt1.countP (fun p => decide (p.1 = k)) := by omega
      obtain ⟨p, hp, hpk⟩ := List.countP_pos.1 hpos
      have hpk2 : p.1 = k := by simpa using hpk
      obtain ⟨hkey, i, rad, hi, hrad, hle, hbound⟩ :=
        hinv1.entries p.1 p.2 (by rw [← Prod.mk.eta (p := p)] at hp; exact hp)
      obtain ⟨rr, hrr⟩ := hinv2.complete i p.2 hi ⟨rad, hrad, by omega⟩
      have hc2 : 1 ≤ bt2.countP (fun q => decide (q.1 = k)) := by
        rw [← hpk2, ← hkey]
        exact countP_key_pos hrr
      have hc1 : bt1.countP (fun p => decide (p.1 = k)) ≤ 1 :=
        countP_key_le_one hinv1.nodup k
      omega
  · intro r hr
    obtain ⟨p, hmem, hp⟩ := List.mem_map.1 hr
    obtain ⟨k, r0⟩ := p
    cases hp
    obtain ⟨hkey, i, rad, hi, hrad, hle, hbound⟩ := hinv1.entries k r0 hmem
    exact ⟨rad, hrad, hle⟩
  · intro r hr
    obtain ⟨p, hmem, hp⟩ := List.mem_map.1 hr
    obtain ⟨k, r0⟩ := p
    cases hp
    obtain ⟨hkey, i, rad, hi, hrad, hle, hbound⟩ := hinv2.entries k r0 hmem
    exact ⟨rad, hrad, hle⟩

/-- Witness for C2 at a concrete input: with cutoff 2023-12-31 the filter
keeps exactly the 2023-06-01 record of the group. -/
theorem claim_C2_witness :
    (∀ r ∈ [wrC], r ∈ [wrA, wrB, wrC] ∧ ∃ rad, recRad r = .ok rad ∧
      rad ≤ 20231231 ∧
      ∀ r' ∈ [wrA, wrB, wrC], recKey r' = recKey r →
        ∀ rad', recRad r' = .ok rad' → rad' ≤ 20231231 → rad' ≤ rad) ∧
    (([wrC] : List Dict).map recKey).Nodup :=
  claim_C2 20231231 [wrA, wrB, wrC] exOD0 [wrC] (by decide) rfl

/-- Witness for the amended C3 at a concrete input: the filter returns the
earlier record `tieA` of the exact-date tie. -/
theorem claim_C3_witness :
    ∃ i rad, ([tieA, tieB] : List Dict).get? i = some tieA ∧
      recRad tieA = .ok rad ∧
      ∀ j r' rad', j < i → ([tieA, tieB] : List Dict).get? j = some r' →
        recKey r' = recKey tieA →
        recRad r' = .ok rad' → rad' ≤ 20231231 → rad' < rad :=
  claim_C3 20231231 [tieA, tieB] exOD0 [tieA] (by decide) rfl tieA (by simp)

/-- Witness for C9 at a concrete input: cutoffs 2022-12-31 ≤ 2023-12-31 keep
one record each for the single group (`wrB` resp. `wrC`). -/
theorem claim_C9_witness :
    (∀ k : RKey, ([wrB] : List Dict).countP (fun r => decide (recKey r = k)) ≤
      ([wrC] : List Dict).countP (fun r => decide (recKey r = k))) ∧
    (∀ r ∈ [wrB], ∃ rad, recRad r = .ok rad ∧ rad ≤ 20221231) ∧
    (∀ r ∈ [wrC], ∃ rad, recRad r = .ok rad ∧ rad ≤ 20231231) :=
  claim_C9 20221231 20231231 [wrA, wrB, wrC] exOD0 [wrB] [wrC]
    (by omega) (by decide) rfl rfl

/-- C1 as stated is false: `record.update(this)` overwrites the sub-record's
value with the shared-context value on a key collision.  Here the `ORD`
sub-record alone carries `X = "sub"`, the shared context carries
`X = "shared"`, and the returned record holds the shared-context value. -/
theorem claim_C1_counterexample :
    element_to_records (.mk (RATINGS_NAMESPACE ++ "ORD") none
        (.cons (nsLeaf "X" "sub") .nil)) none = .ok [[("X", some "sub")]] ∧
    element_to_records (.mk (RATINGS_NAMESPACE ++ "OD") none
        (.cons (nsLeaf "X" "shared")
          (.cons (.mk (RATINGS_NAMESPACE ++ "ORD") none
            (.cons (nsLeaf "X" "sub") .nil)) .nil))) none =
      .ok [[("X", some "shared")]] ∧
    (some "shared" : Option String) ≠ some "sub" :=
  ⟨rfl, rfl, by decide⟩

/-- C1 amended: for a sequence container, each returned record is the union of
the sub-record's fields and the shared-context fields, and on a key collision
the SHARED-CONTEXT value takes precedence over the sub-record's value. -/
theorem claim_C1 (tag : String) (x : Option String) (cs : ElementList)
    (it : String) (hseq : seqLookup tag = some it)
    (this_ : Dict) (subs : List Dict)
    (hw : walk (some it) none cs [] [] = .ok (this_, subs))
    (rs : List Dict) (h : element_to_records (.mk tag x cs) none = .ok rs) :
    ∀ r ∈ rs, ∃ sub ∈ subs, ∀ k,
      Dict.get r k =
        match Dict.get this_ k with
        | some v => some v
        | none => Dict.get sub k := by
  have hres : element_to_records (.mk tag x cs) none =
      .ok (subs.map (fun record => Dict.update record this_)) := by
    rw [element_to_records_mk, hseq, hw]
  rw [hres] at h
  injection h with h2
  subst h2
  intro r hr
  obtain ⟨sub, hsub, rfl⟩ := List.mem_map.1 hr
  have hnodup : (this_.map Prod.fst).Nodup := by
    rw [walk_this hw]
    exact nodupKeys_update (by simp)
  refine ⟨sub, hsub, fun k => ?_⟩
  rw [Dict.get_update, lastGet_eq_get hnodup]

/-- Witness for the amended C1 at the counterexample input. -/
theorem claim_C1_witness :
    ∃ sub ∈ ([[("X", some "sub")]] : List Dict), ∀ k,
      Dict.get ([("X", some "shared")] : Dict) k =
        match Dict.get [("X", some "shared")] k with
        | some v => some v
        | none => Dict.get sub k :=
  claim_C1 (RATINGS_NAMESPACE ++ "OD") none
    (.cons (nsLeaf "X" "shared")
      (.cons (.mk (RATINGS_NAMESPACE ++ "ORD") none
        (.cons (nsLeaf "X" "sub") .nil)) .nil))
    (RATINGS_NAMESPACE ++ "ORD") rfl
    [("X", some "shared")] [[("X", some "sub")]] rfl
    [[("X", some "shared")]] rfl
    [("X", some "shared")] (by simp)

/-- C8: the worklist traversal visits nodes in document order; the
shared-context dict built by `walk` assigns to every key exactly the value of
the LAST non-item leaf with that (namespace-stripped) tag in document order
(`collectLeaves` lists those leaves in document order; `lastGet` picks the
last occurrence). -/
theorem claim_C8 (st : Option String) (tr : Option Transform)
    (es : ElementList) (d1 : Dict) (rs1 : List Dict)
    (h : walk st tr es [] [] = .ok (d1, rs1)) :
    ∀ k, Dict.get d1 k = lastGet (collectLeaves st es) k := by
  intro k
  rw [walk_this h, Dict.get_update]
  cases hl : lastGet (collectLeaves st es) k with
  | some v => rfl
  | none => rfl

/-- Witness for C8: two leaves with the same tag `X`; the later one
(`"v2"`) determines the shared-context value. -/
theorem claim_C8_witness :
    Dict.get [("X", some "v2")] "X" =
      lastGet (collectLeaves none
        (.cons (nsLeaf "X" "v1") (.cons (nsLeaf "X" "v2") .nil))) "X" :=
  claim_C8 none none (.cons (nsLeaf "X" "v1") (.cons (nsLeaf "X" "v2") .nil))
    [("X", some "v2")] [] rfl "X"

/-- C7: record extraction returns an empty record set when the rating type's
root tag is absent from the document, and otherwise stores the document-level
`RAN` and `FCD` values into every produced record, overwriting any same-named
field. -/
theorem claim_C7 (root : Element) (rt : RatingType) (asof : Option Nat) :
    (findDesc root (rootTag rt) = none → xml_to_records root rt asof = .ok []) ∧
    (∀ rs, xml_to_records root rt asof = .ok rs → ∀ r ∈ rs,
      Dict.get r "RAN" = some (findtextDesc root (RATINGS_NAMESPACE ++ "RAN")) ∧
      Dict.get r "FCD" = some (findtextDesc root (RATINGS_NAMESPACE ++ "FCD"))) := by
  constructor
  · intro h
    simp only [xml_to_records, h]
  · intro rs h r hr
    cases hf : findDesc root (rootTag rt) with
    | none =>
      simp only [xml_to_records, hf] at h
      injection h with h2
      subst h2
      simp at hr
    | some element =>
      simp only [xml_to_records, hf] at h
      cases he : element_to_records element (asof.map filter_asof) with
      | error e =>
        rw [he] at h
        cases h
      | ok records =>
        rw [he] at h
        injection h with h2
        subst h2
        obtain ⟨r0, hr0, rfl⟩ := List.mem_map.1 hr
        constructor
        · rw [Dict.get_set, if_neg (by decide), Dict.get_set, if_pos rfl]
        · rw [Dict.get_set, if_pos rfl]

/-- Witness for C7: a document lacking the root tag yields `[]`; the records
of `exDoc` all carry the document-level `RAN` and `FCD` values. -/
theorem claim_C7_witness :
    xml_to_records exNoOD .obligor none = .ok [] ∧
    (∀ r ∈ [exRec1, exRec2],
      Dict.get r "RAN" = some (findtextDesc exDoc (RATINGS_NAMESPACE ++ "RAN")) ∧
      Dict.get r "FCD" = some (findtextDesc exDoc (RATINGS_NAMESPACE ++ "FCD"))) :=
  ⟨(claim_C7 exNoOD .obligor none).1 rfl,
   (claim_C7 exDoc .obligor none).2 [exRec1, exRec2] rfl⟩

/-- C6: a sequence container holding `N` item-tagged children at one level
(no nested sequences, item fields all leaves) and otherwise leaf children
flattens, without transformation, to exactly `N` records — in particular zero
records for `N = 0`, the shared-context fields being dropped — and, when the
shared-context keys do not collide with an item's own keys, the `i`-th record
contains all shared-context fields and all fields of the `i`-th item. -/
theorem claim_C6 (tag : String) (x : Option String) (cs : ElementList)
    (it : String) (hseq : seqLookup tag = some it)
    (hshape : ∀ c ∈ cs.toList,
      (c.tag = it ∧ seqLookup c.tag = none ∧
        (∀ g ∈ c.children.toList, g.children = ElementList.nil)) ∨
      (c.tag ≠ it ∧ c.children = ElementList.nil))
    (hdisj : ∀ c ∈ cs.toList, c.tag = it →
      ∀ p ∈ leafDict c.children,
        Dict.get (sharedContext (some it) cs) p.1 = none) :
    ∃ rs, element_to_records (.mk tag x cs) none = .ok rs ∧
      rs.length = (cs.toList.filter (fun c => c.tag == it)).length ∧
      ∀ i r, rs.get? i = some r →
        ∃ c, (cs.toList.filter (fun c => c.tag == it)).get? i = some c ∧
          (∀ k v, Dict.get (sharedContext (some it) cs) k = some v →
            Dict.get r k = some v) ∧
          (∀ k v, Dict.get (leafDict c.children) k = some v →
            Dict.get r k = some v) := by
  have hwalk := walk_items it cs [] [] hshape
  have hres : element_to_records (.mk tag x cs) none =
      .ok (((cs.toList.filter (fun c => c.tag == it)).map
        (fun c => leafDict c.children)).map
          (fun record => Dict.update record (sharedContext (some it) cs))) := by
    rw [element_to_records_mk, hseq, hwalk]
    rfl
  have hnodup : ((sharedContext (some it) cs).map Prod.fst).Nodup :=
    nodupKeys_update (by simp)
  refine ⟨_, hres, by rw [List.length_map, List.length_map], ?_⟩
  intro i r hir
  rw [List.get?_map, List.get?_map] at hir
  cases hc : (cs.toList.filter (fun c => c.tag == it)).get? i with
  | none =>
    rw [hc] at hir
    cases hir
  | some c =>
    rw [hc] at hir
    have hr : r = Dict.update (leafDict c.children) (sharedContext (some it) cs) :=
      (Option.some.inj hir).symm
    subst hr
    have hcmem := List.get?_mem hc
    have hcfil := List.mem_filter.1 hcmem
    have hctag : c.tag = it := by
      have := hcfil.2
      simpa using this
    refine ⟨c, rfl, ?_, ?_⟩
    · intro k v hv
      rw [Dict.get_update, lastGet_eq_get hnodup, hv]
    · intro k v hv
      have hmem : (k, v) ∈ leafDict c.children := mem_of_alGet_eq_some hv
      have hnone : Dict.get (sharedContext (some it) cs) k = none :=
        hdisj c hcfil.1 hctag (k, v) hmem
      rw [Dict.get_update, lastGet_eq_get hnodup, hnone]
      exact hv

/-- Witness for C6 at the obligor container of `exDoc`: one shared leaf
(`OBNAME`), two `ORD` items, two records. -/
theorem claim_C6_witness :
    ∃ rs, element_to_records
        (.mk (RATINGS_NAMESPACE ++ "OD") none exC6cs) none = .ok rs ∧
      rs.length = (exC6cs.toList.filter
        (fun c => c.tag == RATINGS_NAMESPACE ++ "ORD")).length ∧
      ∀ i r, rs.get? i = some r →
        ∃ c, (exC6cs.toList.filter
            (fun c => c.tag == RATINGS_NAMESPACE ++ "ORD")).get? i = some c ∧
          (∀ k v, Dict.get (sharedContext
              (some (RATINGS_NAMESPACE ++ "ORD")) exC6cs) k = some v →
            Dict.get r k = some v) ∧
          (∀ k v, Dict.get (leafDict c.children) k = some v →
            Dict.get r k = some v) :=
  claim_C6 (RATINGS_NAMESPACE ++ "OD") none exC6cs
    (RATINGS_NAMESPACE ++ "ORD") rfl (by decide) (by decide)

/-- The only exception `writeRow` raises is `ValueError`. -/
theorem writeRow_error_eq {fns : List String} {r : Dict} {e : PyExc}
    (h : writeRow fns r = .error e) : e = PyExc.valueError := by
  simp only [writeRow] at h
  split at h
  · exact (Except.error.inj h).symm
  · cases h

/-- `writerows` raises `ValueError` whenever some record holds a key outside
the CSV field names. -/
theorem writeRows_error {fns : List String} : ∀ recs : List Dict,
    (∃ r ∈ recs, ∃ p ∈ r, ¬ p.1 ∈ fns) →
    writeRows fns recs = .error .valueError := by
  intro recs
  induction recs with
  | nil =>
    rintro ⟨r, hr, _⟩
    simp at hr
  | cons r0 rest ih =>
    rintro ⟨r, hr, p, hp, hnp⟩
    rcases List.mem_cons.1 hr with rfl | hr2
    · have hbad : (r.any (fun p => ¬ p.1 ∈ fns)) = true := by
        rw [List.any_eq_true]
        refine ⟨p, hp, ?_⟩
        simpa using hnp
      have hw : writeRow fns r = .error .valueError := by
        simp only [writeRow]
        rw [if_pos hbad]
      simp [writeRows, hw]
    · have hrest := ih ⟨r, hr2, p, hp, hnp⟩
      cases hw : writeRow fns r0 with
      | error e =>
        have he := writeRow_error_eq hw
        subst he
        simp [writeRows, hw]
      | ok row =>
        simp [writeRows, hw, hrest]

/-- `writerows` on records whose keys all belong to the field names writes one
row per record: per field the stored string, with a missing key or a stored
`None` rendered as the empty string. -/
theorem writeRows_ok {fns : List String} : ∀ recs : List Dict,
    (∀ r ∈ recs, ∀ p ∈ r, p.1 ∈ fns) →
    writeRows fns recs =
      .ok (recs.map (fun r => fns.map (fun f => (flatGet r f).getD ""))) := by
  intro recs
  induction recs with
  | nil => intro h; rfl
  | cons r0 rest ih =>
    intro h
    have hok : writeRow fns r0 = .ok (fns.map (fun f => (flatGet r0 f).getD "")) := by
      simp only [writeRow]
      rw [if_neg]
      intro hany
      rw [List.any_eq_true] at hany
      obtain ⟨p, hp, hbad⟩ := hany
      simp only [decide_eq_true_eq] at hbad
      exact hbad (h r0 (by simp) p hp)
    have htail := ih (fun r hr p hp => h r (by simp [hr]) p hp)
    simp [writeRows, hok, htail]

/-- C10: a record holding a key outside the rating type's field-name list
makes `DictWriter` raise `ValueError`, which the per-entry handler (tuned to
`UnicodeEncodeError`) does not catch — the whole run aborts, whatever entries
follow; a record merely missing keys is written with empty strings for the
missing columns. -/
theorem claim_C10 (rt : RatingType) (asof : Option Nat) (name : String)
    (root : Element) (recs : List Dict)
    (rest : List (String × Except PyExc Element))
    (hxml : endswith name ".xml" = true)
    (hrecs : xml_to_records root rt asof = .ok recs) :
    ((∃ r ∈ recs, ∃ p ∈ r, ¬ p.1 ∈ fieldnames rt) →
      ratings_to_csv ((name, .ok root) :: rest) rt asof = .error .valueError) ∧
    ((∀ r ∈ recs, ∀ p ∈ r, p.1 ∈ fieldnames rt) →
      ratings_to_csv [(name, .ok root)] rt asof =
        .ok (recs.map (fun r =>
          (fieldnames rt).map (fun f => (flatGet r f).getD "")))) := by
  constructor
  · intro hbad
    have hw := writeRows_error recs hbad
    have hstep : entryStep rt asof [] (name, .ok root) = .error .valueError := by
      simp only [entryStep, entryRows, hxml, hrecs, hw, if_true]
    simp only [ratings_to_csv, csvLoop, hstep]
  · intro hgood
    have hw := writeRows_ok recs hgood
    have hstep : entryStep rt asof [] (name, .ok root) =
        .ok (recs.map (fun r =>
          (fieldnames rt).map (fun f => (flatGet r f).getD ""))) := by
      simp only [entryStep, entryRows, hxml, hrecs, hw, if_true]
      rw [List.nil_append]
    simp only [ratings_to_csv, csvLoop, hstep]

/-- Witness for C10: the `XYZ`-carrying document aborts the run with
`ValueError` even though a further entry follows, while the clean `exDoc`
is written with empty strings for its missing columns. -/
theorem claim_C10_witness :
    ratings_to_csv [("bad.xml", .ok exDocBad), ("later.xml", .ok exDoc)]
      .obligor none = .error .valueError ∧
    ratings_to_csv [("good.xml", .ok exDoc)] .obligor none =
      .ok (([exRec1, exRec2] : List Dict).map (fun r =>
        (fieldnames .obligor).map (fun f => (flatGet r f).getD ""))) :=
  ⟨(claim_C10 .obligor none "bad.xml" exDocBad [exRecBad]
      [("later.xml", .ok exDoc)] (by decide) rfl).1 (by decide),
   (claim_C10 .obligor none "good.xml" exDoc [exRec1, exRec2] [] (by decide) rfl).2
      (by decide)⟩

/-- C4 is a code bug: the per-entry handler catches only `UnicodeEncodeError`,
but a `.xml` entry whose bytes fail text decoding or XML parsing raises
`UnicodeDecodeError` / `ParseError` inside `etree.parse`, which the handler
does not catch.  At this input the run aborts on the first (malformed) entry
and the subsequent valid entry — which alone would contribute two rows — is
never processed, contradicting the documented skip-and-continue behavior. -/
theorem claim_C4 :
    ratings_to_csv
      [("bad.xml", .error .unicodeDecodeError), ("good.xml", .ok exDoc)]
      .obligor none = .error .unicodeDecodeError ∧
    ratings_to_csv [("good.xml", .ok exDoc)] .obligor none =
      .ok [exRow1, exRow2] :=
  ⟨rfl, rfl⟩

/-- C5 as stated is false: `list(AGENCY_FIELDS | OBLIGOR_FIELDS |
RATING_FIELDS)` iterates the merged dict's KEYS, so the CSV header consists of
the short tags, not the renamed long column names, and the rows are keyed by
short tags as well (`exRec1` holds `("R", "BBB")`, not `("rating", "BBB")`). -/
theorem claim_C5_counterexample :
    fieldnames .obligor =
      ["RAN", "FCD", "OSC", "OIG", "OBNAME", "LEI", "CIK", "OI", "OIS",
       "OIOS", "IP", "R", "RAD", "RAC", "WST", "ROL", "OAN", "RT", "RST",
       "RTT"] ∧
    ¬ "rating_agency_name" ∈ fieldnames .obligor ∧
    xml_to_records exDoc .obligor none = .ok [exRec1, exRec2] ∧
    ¬ ("rating", some "BBB") ∈ exRec1 ∧ ("R", some "BBB") ∈ exRec1 :=
  ⟨rfl, by decide, rfl, by decide, by decide⟩

/-- C5 amended: the CSV header row and the keys of every written row are the
SHORT tag identifiers — the keys of the agency, type-specific and rating
dictionaries in their union order — and none of the long renamed column names
(the dictionaries' values) ever appears among the field names. -/
theorem claim_C5 :
    fieldnames .obligor = AGENCY_FIELDS.map Prod.fst ++
      OBLIGOR_FIELDS.map Prod.fst ++ RATING_FIELDS.map Prod.fst ∧
    fieldnames .issuer = AGENCY_FIELDS.map Prod.fst ++
      ISSUER_FIELDS.map Prod.fst ++ RATING_FIELDS.map Prod.fst ∧
    ∀ v ∈ (AGENCY_FIELDS ++ OBLIGOR_FIELDS ++ ISSUER_FIELDS ++
        RATING_FIELDS).map Prod.snd,
      ¬ v ∈ fieldnames .obligor ∧ ¬ v ∈ fieldnames .issuer := by
  refine ⟨rfl, rfl, ?_⟩
  decide

/-- Witness for the amended C5 at a concrete long name. -/
theorem claim_C5_witness :
    ¬ "rating_agency_name" ∈ fieldnames .obligor ∧
    ¬ "rating_agency_name" ∈ fieldnames .issuer :=
  claim_C5.2.2 "rating_agency_name" (by decide)
